import Mathlib

/-!
Verification of the tsdoc tokenizer (`Tokenizer.ts`) and its companion
subsystems.  The tokenizer, its `TokenKind` enumeration and the `Token`
class are embedded directly from the source; the `TextRange` helper class
(not part of the provided sources) is modelled from the spec's data model.
Buffers are lists of character codes' carriers (`Char`), and the character
classification table is built by the same sequence of insertions that
`Tokenizer._ensureInitialized` performs.
-/

namespace TSDoc

/-- Modelled from the spec: `TextRange` (`TextRange.ts` is not among the
provided sources).  The spec describes it as an immutable zero-copy view
`{buffer: string, pos: int, end: int}` with sub-ranging
`getNewRange(newPos, newEnd)` and an explicit empty singleton.  `end` is a
Lean keyword, so the field is called `endPos`. -/
structure TextRange where
  buffer : List Char
  pos : Nat
  endPos : Nat
deriving Repr, DecidableEq

/-- Modelled from the spec: the explicit empty singleton `TextRange.empty`. -/
def TextRange.empty : TextRange := ⟨[], 0, 0⟩

/-- Modelled from the spec: sub-ranging keeps the same buffer and replaces
the bounds. -/
def TextRange.getNewRange (r : TextRange) (newPos newEnd : Nat) : TextRange :=
  ⟨r.buffer, newPos, newEnd⟩

/-- The source text covered by a range: the slice of the buffer between
`pos` (inclusive) and `endPos` (exclusive). -/
def TextRange.text (r : TextRange) : List Char :=
  (r.buffer.drop r.pos).take (r.endPos - r.pos)

/-- `TokenKind` from the source (same constructor order as the TypeScript
enum). -/
inductive TokenKind where
  | EndOfInput
  | Newline
  | Spacing
  | AsciiWord
  | OtherPunctuation
  | Other
  | Backslash
  | LessThan
  | GreaterThan
  | Equals
  | SingleQuote
  | DoubleQuote
  | Slash
deriving Repr, DecidableEq

/-- `Token` from the source: a kind, the covered range and the line the
token was extracted from. -/
structure Token where
  kind : TokenKind
  range : TextRange
  line : TextRange
deriving Repr, DecidableEq

/-- The character codes of `Tokenizer._commonMarkPunctuationCharacters`,
the string `!"#$%&'()*+,-./:;<=>?@[\]^_` (backquote) `{|}~`. -/
def commonMarkPunctuationCharCodes : List Nat :=
  [33, 34, 35, 36, 37, 38, 39, 40, 41, 42, 43, 44, 45, 46, 47,
   58, 59, 60, 61, 62, 63, 64, 91, 92, 93, 94, 95, 96, 123, 124, 125, 126]

/-- The character codes of `Tokenizer._wordCharacters`: the lowercase
letters, the uppercase letters, the decimal digits, in the source's order. -/
def wordCharCodes : List Nat :=
  [97, 98, 99, 100, 101, 102, 103, 104, 105, 106, 107, 108, 109, 110, 111,
   112, 113, 114, 115, 116, 117, 118, 119, 120, 121, 122,
   65, 66, 67, 68, 69, 70, 71, 72, 73, 74, 75, 76, 77, 78, 79, 80, 81, 82,
   83, 84, 85, 86, 87, 88, 89, 90,
   48, 49, 50, 51, 52, 53, 54, 55, 56, 57]

/-- One assignment `map[charCode] = kind` into the classification table. -/
def insertCode (m : Nat → Option TokenKind) (c : Nat) (k : TokenKind) :
    Nat → Option TokenKind :=
  fun x => if x = c then some k else m x

/-- The `specialMap` of `Tokenizer._ensureInitialized`, in the source's
property order: backslash, less-than, greater-than, equals, single quote,
double quote, slash. -/
def specialEntries : List (Nat × TokenKind) :=
  [(92, TokenKind.Backslash),
   (60, TokenKind.LessThan),
   (62, TokenKind.GreaterThan),
   (61, TokenKind.Equals),
   (39, TokenKind.SingleQuote),
   (34, TokenKind.DoubleQuote),
   (47, TokenKind.Slash)]

/-- `Tokenizer._charCodeMap` is built by a sequence of assignments in
`_ensureInitialized`; the next four definitions perform the same
assignments in the same order, each naming the table state after one
loop of assignments.  First: all CommonMark punctuation characters map to
`OtherPunctuation` (lines 216-220). -/
def punctuationAssignments : Nat → Option TokenKind :=
  commonMarkPunctuationCharCodes.foldl
    (fun m c => insertCode m c TokenKind.OtherPunctuation) (fun _ => none)

/-- Then the seven special symbols override with their own kinds
(lines 222-235). -/
def specialAssignments : Nat → Option TokenKind :=
  specialEntries.foldl (fun m e => insertCode m e.1 e.2) punctuationAssignments

/-- Then the word characters map to `AsciiWord` (lines 239-243). -/
def wordAssignments : Nat → Option TokenKind :=
  wordCharCodes.foldl (fun m c => insertCode m c TokenKind.AsciiWord)
    specialAssignments

/-- Finally space and tab map to `Spacing` (lines 244-245): the completed
`Tokenizer._charCodeMap`. -/
def charCodeMap : Nat → Option TokenKind :=
  insertCode (insertCode wordAssignments 32 TokenKind.Spacing) 9
    TokenKind.Spacing

/-- `Tokenizer._punctuationTokens`: the seven special kinds plus
`OtherPunctuation`. -/
def punctuationTokens (k : TokenKind) : Bool :=
  (specialEntries.map Prod.snd).contains k || k == TokenKind.OtherPunctuation

/-- `Tokenizer.isPunctuation`. -/
def isPunctuation (k : TokenKind) : Bool :=
  punctuationTokens k

/-- `buffer.charCodeAt(i)`; out-of-bounds accesses (which the tokenizer
never performs on well-formed ranges) yield code 0, which like NaN in the
source is classified as `Other`. -/
def charCodeAt (buffer : List Char) (i : Nat) : Nat :=
  (buffer.getD i (Char.ofNat 0)).toNat

/-- Lines 172-176 of the source: look up the character's kind, defaulting
to `Other` when the table has no entry. -/
def characterKindOf (c : Nat) : TokenKind :=
  match charCodeMap c with
  | none => TokenKind.Other
  | some k => k

/-- The `if (tokenKind !== undefined) tokens.push(...)` step that flushes
the token currently being accumulated (lines 187-190 and 199-202). -/
def pendingToken (line : TextRange) (tokenKind : Option TokenKind)
    (tokenPos bufferIndex : Nat) : List Token :=
  match tokenKind with
  | some k => [⟨k, line.getNewRange tokenPos bufferIndex, line⟩]
  | none => []

/-- The `while (bufferIndex < end)` loop of `Tokenizer._pushTokensForLine`
(lines 170-204), with the mutable locals `bufferIndex`, `tokenKind` and
`tokenPos` threaded explicitly; returns the list of tokens pushed from this
point on, ending with the line's `Newline` token.  The loop advances
`bufferIndex` by one per iteration and exits as soon as
`bufferIndex < line.endPos` fails, so running it with `fuel` at least
`line.endPos - bufferIndex` reproduces it exactly (`fuel` makes the
recursion structural; when it reaches `0` the guard is already false and
both exits agree). -/
def scanLine (line : TextRange) (fuel : Nat) (bufferIndex : Nat)
    (tokenKind : Option TokenKind) (tokenPos : Nat) : List Token :=
  match fuel with
  | fuel + 1 =>
    if bufferIndex < line.endPos then
      -- Read a character and determine its kind
      -- (`characterKindOf (charCodeAt line.buffer bufferIndex)` is the
      -- local `characterKind` of the source, written out at each use).
      -- Can we append to an existing token?  Yes if:
      -- 1. There is an existing token, AND
      -- 2. It is the same kind of token, AND
      -- 3. It's not punctuation (which is always one character)
      if tokenKind ≠ none ∧
          tokenKind = some (characterKindOf (charCodeAt line.buffer bufferIndex)) ∧
          tokenKind ≠ some TokenKind.OtherPunctuation then
        scanLine line fuel (bufferIndex + 1) tokenKind tokenPos
      else
        pendingToken line tokenKind tokenPos bufferIndex ++
          scanLine line fuel (bufferIndex + 1)
            (some (characterKindOf (charCodeAt line.buffer bufferIndex)))
            bufferIndex
    else
      pendingToken line tokenKind tokenPos bufferIndex ++
        [⟨TokenKind.Newline, line.getNewRange line.endPos line.endPos, line⟩]
  | 0 =>
    pendingToken line tokenKind tokenPos bufferIndex ++
      [⟨TokenKind.Newline, line.getNewRange line.endPos line.endPos, line⟩]

/-- `Tokenizer._pushTokensForLine`: scan the line from `line.pos` with no
token in progress (the loop runs at most `line.endPos - line.pos`
iterations, so that much fuel is exact). -/
def pushTokensForLine (line : TextRange) : List Token :=
  scanLine line (line.endPos - line.pos) line.pos none line.pos

/-- `Tokenizer.readTokens` (lines 128-151): tokenize every line in order,
then append the `EndOfInput` token anchored at the end of the last line, or
over `TextRange.empty` when there were no lines. -/
def readTokens (lines : List TextRange) : List Token :=
  (lines.map pushTokensForLine).flatten ++
    [match lines.getLast? with
     | some lastLine =>
        ⟨TokenKind.EndOfInput,
         lastLine.getNewRange lastLine.endPos lastLine.endPos, lastLine⟩
     | none => ⟨TokenKind.EndOfInput, TextRange.empty, TextRange.empty⟩]

/-- A non-synthetic ("content") token kind: everything except `Newline` and
`EndOfInput`. -/
def isContentKind (k : TokenKind) : Bool :=
  !(k == TokenKind.Newline) && !(k == TokenKind.EndOfInput)

/-- The `(pos, endPos)` bounds of the non-synthetic tokens of a token list,
in emission order. -/
def tokenBounds (ts : List Token) : List (Nat × Nat) :=
  (ts.filter fun t => isContentKind t.kind).map fun t => (t.range.pos, t.range.endPos)

/-- `chainFrom a b l` says the bound pairs in `l` tile the interval
`[a, b)` exactly: each pair starts where the previous one ended, each pair
is non-empty, and the last one ends at `b`.  This is the "no gaps and no
overlaps" shape of a token cover. -/
def chainFrom : Nat → Nat → List (Nat × Nat) → Prop
  | a, b, [] => a = b
  | a, b, q :: rest => q.1 = a ∧ a < q.2 ∧ chainFrom q.2 b rest

/-- The slice of a buffer between two offsets. -/
def textSlice (buffer : List Char) (a b : Nat) : List Char :=
  (buffer.drop a).take (b - a)

/-!
The claims about the doc-comment parser and the configuration-file loader
concern code that is not among the provided sources (only its tests are),
so those parts are modelled from the spec below.
-/

/-- Modelled from the spec: "a `@` immediately followed by AsciiWord
characters forms a candidate tag name" (spec 4.2).  Scans the token stream
for an `@` punctuation token directly followed by an `AsciiWord` token and
returns the candidate tag names, in order of appearance. -/
def extractTagNames : List Token → List (List Char)
  | t1 :: t2 :: rest =>
    if t1.kind = TokenKind.OtherPunctuation ∧ t1.range.text = ['@']
        ∧ t2.kind = TokenKind.AsciiWord then
      (t1.range.text ++ t2.range.text) :: extractTagNames (t2 :: rest)
    else
      extractTagNames (t2 :: rest)
  | _ => []

/-- Modelled from the spec: the standard modifier tags exercised by the
spec's example (`@alpha`, `@beta`, `@internal`); the parser and the
standard-tag table are not among the provided sources. -/
def standardModifierTagNames : List (List Char) :=
  [String.toList "@alpha", String.toList "@beta", String.toList "@internal"]

/-- Modelled from the spec: the `modifierTagSet` of a parsed comment — the
standard modifier tags encountered anywhere in the comment body (spec 4.2:
modifier tags are order- and position-insensitive, duplicates are retained,
unknown tags are retained without aborting the parse). -/
def modifierTagSet (lines : List TextRange) : List (List Char) :=
  (extractTagNames (readTokens lines)).filter
    (fun n => standardModifierTagNames.contains n)

/-- Modelled from the spec: membership query on the modifier tag set. -/
def hasTagName (lines : List TextRange) (name : String) : Bool :=
  (modifierTagSet lines).contains name.toList

/-- A doc-comment body line as a text range over its own buffer. -/
def mkLine (s : String) : TextRange :=
  ⟨s.toList, 0, s.toList.length⟩

/-- The stripped body lines of the spec's example comment
`"/**\n * START @beta\n * @unknownTag\n * @internal @internal END\n */"`. -/
def exampleCommentLines : List TextRange :=
  [mkLine "START @beta", mkLine "@unknownTag", mkLine "@internal @internal END"]

/-- Modelled from the spec: one diagnostic message
`{messageId, unformattedText, textRange}` (the `tokenSequence` and
`docNode` attachments are not needed by any claim). -/
structure ParserMessage where
  messageId : String
  unformattedText : String
  textRange : TextRange
deriving Repr, DecidableEq

/-- Modelled from the spec: a tag definition
`{tagName, syntaxKind, allowMultiple}`. -/
inductive TSDocTagSyntaxKind where
  | BlockTag
  | InlineTag
  | ModifierTag
deriving Repr, DecidableEq

/-- Modelled from the spec: a tag definition record. -/
structure TSDocTagDefinition where
  tagName : String
  syntaxKind : TSDocTagSyntaxKind
  allowMultiple : Bool
deriving Repr, DecidableEq

/-- Modelled from the spec: the Config File record produced by the
configuration-file resolver (`TSDocConfigFile` is not among the provided
sources).  `extendsFiles` makes the record a tree, so this is an inductive
type with projections below. -/
inductive ConfigFileRecord where
  | mk
    (filePath : String)
    (fileNotFound : Bool)
    (tsdocSchema : String)
    (extendsPaths : List String)
    (extendsFiles : List ConfigFileRecord)
    (tagDefinitions : List TSDocTagDefinition)
    (log : List ParserMessage)

def ConfigFileRecord.filePath : ConfigFileRecord → String
  | .mk p _ _ _ _ _ _ => p

def ConfigFileRecord.fileNotFound : ConfigFileRecord → Bool
  | .mk _ f _ _ _ _ _ => f

def ConfigFileRecord.tsdocSchema : ConfigFileRecord → String
  | .mk _ _ s _ _ _ _ => s

def ConfigFileRecord.extendsPaths : ConfigFileRecord → List String
  | .mk _ _ _ e _ _ _ => e

def ConfigFileRecord.extendsFiles : ConfigFileRecord → List ConfigFileRecord
  | .mk _ _ _ _ e _ _ => e

def ConfigFileRecord.tagDefinitions : ConfigFileRecord → List TSDocTagDefinition
  | .mk _ _ _ _ _ t _ => t

def ConfigFileRecord.log : ConfigFileRecord → List ParserMessage
  | .mk _ _ _ _ _ _ l => l

/-- Modelled from the spec: the parsed JSON body of a `tsdoc.json` file
(schema URL, `extends` path list, tag definitions; the synonym directives
are not needed by any claim). -/
structure ConfigJson where
  schema : String
  extendsPaths : List String
  tagDefinitions : List TSDocTagDefinition
deriving Repr

/-- Modelled from the spec: `loadForFolder(path)` — synchronous, never
throws; a missing `tsdoc.json` yields `fileNotFound: true`,
`tsdocSchema: ""`, no tag definitions, and a single "File not found"
diagnostic whose text range is the empty range at offset 0.  The
filesystem is abstracted as a partial map from file paths to parsed JSON
bodies; recursive `extends` resolution is not modelled (no claim under
verification exercises it), so a present file's `extendsFiles` list is left
empty. -/
def loadForFolder (fs : String → Option ConfigJson) (folderPath : String) :
    ConfigFileRecord :=
  match fs (folderPath ++ "/tsdoc.json") with
  | none =>
    ConfigFileRecord.mk (folderPath ++ "/tsdoc.json") true "" [] [] []
      [⟨"tsdoc-config-file-not-found", "File not found", TextRange.empty⟩]
  | some json =>
    ConfigFileRecord.mk (folderPath ++ "/tsdoc.json") false json.schema
      json.extendsPaths [] json.tagDefinitions []

/-! ### The classification table, characterized -/

theorem foldl_insertCode_apply (l : List Nat) (k : TokenKind)
    (m : Nat → Option TokenKind) (x : Nat) :
    (l.foldl (fun m c => insertCode m c k) m) x =
      if l.contains x then some k else m x := by
  induction l generalizing m with
  | nil => simp
  | cons c t ih =>
    simp only [List.foldl_cons, ih, List.contains_cons]
    by_cases hx : x = c
    · subst hx
      simp [insertCode]
    · simp [insertCode, hx, Ne.symm hx]

theorem foldl_specialEntries_apply (m : Nat → Option TokenKind) (x : Nat) :
    (specialEntries.foldl (fun m e => insertCode m e.1 e.2) m) x =
      if x = 47 then some TokenKind.Slash
      else if x = 34 then some TokenKind.DoubleQuote
      else if x = 39 then some TokenKind.SingleQuote
      else if x = 61 then some TokenKind.Equals
      else if x = 62 then some TokenKind.GreaterThan
      else if x = 60 then some TokenKind.LessThan
      else if x = 92 then some TokenKind.Backslash
      else m x :=
  rfl

theorem punctuationAssignments_apply (c : Nat) :
    punctuationAssignments c =
      if commonMarkPunctuationCharCodes.contains c then
        some TokenKind.OtherPunctuation
      else none := by
  unfold punctuationAssignments
  rw [foldl_insertCode_apply]

theorem specialAssignments_apply (c : Nat) :
    specialAssignments c =
      if c = 47 then some TokenKind.Slash
      else if c = 34 then some TokenKind.DoubleQuote
      else if c = 39 then some TokenKind.SingleQuote
      else if c = 61 then some TokenKind.Equals
      else if c = 62 then some TokenKind.GreaterThan
      else if c = 60 then some TokenKind.LessThan
      else if c = 92 then some TokenKind.Backslash
      else punctuationAssignments c :=
  foldl_specialEntries_apply punctuationAssignments c

theorem wordAssignments_apply (c : Nat) :
    wordAssignments c =
      if wordCharCodes.contains c then some TokenKind.AsciiWord
      else specialAssignments c := by
  unfold wordAssignments
  rw [foldl_insertCode_apply]

/-- The classification table as a decision chain.  The chain inspects the
assignments of `_ensureInitialized` in reverse order, which is exactly how
the overriding assignments resolve. -/
theorem charCodeMap_apply (c : Nat) :
    charCodeMap c =
      if c = 9 then some TokenKind.Spacing
      else if c = 32 then some TokenKind.Spacing
      else if wordCharCodes.contains c then some TokenKind.AsciiWord
      else if c = 47 then some TokenKind.Slash
      else if c = 34 then some TokenKind.DoubleQuote
      else if c = 39 then some TokenKind.SingleQuote
      else if c = 61 then some TokenKind.Equals
      else if c = 62 then some TokenKind.GreaterThan
      else if c = 60 then some TokenKind.LessThan
      else if c = 92 then some TokenKind.Backslash
      else if commonMarkPunctuationCharCodes.contains c then
        some TokenKind.OtherPunctuation
      else none := by
  unfold charCodeMap
  simp only [insertCode, wordAssignments_apply, specialAssignments_apply,
    punctuationAssignments_apply]

theorem punctuationAssignments_content {c : Nat} {k : TokenKind}
    (hm : punctuationAssignments c = some k) : isContentKind k = true := by
  rw [punctuationAssignments_apply] at hm
  by_cases h : commonMarkPunctuationCharCodes.contains c = true
  · rw [if_pos h] at hm
    injection hm with hk
    subst hk
    rfl
  · rw [if_neg h] at hm
    exact Option.noConfusion hm

theorem specialAssignments_content {c : Nat} {k : TokenKind}
    (hm : specialAssignments c = some k) : isContentKind k = true := by
  rw [specialAssignments_apply] at hm
  split_ifs at hm <;>
    first
      | exact punctuationAssignments_content hm
      | (injection hm with hk; subst hk; rfl)

theorem wordAssignments_content {c : Nat} {k : TokenKind}
    (hm : wordAssignments c = some k) : isContentKind k = true := by
  rw [wordAssignments_apply] at hm
  by_cases h : wordCharCodes.contains c = true
  · rw [if_pos h] at hm
    injection hm with hk
    subst hk
    rfl
  · rw [if_neg h] at hm
    exact specialAssignments_content hm

theorem charCodeMap_content {c : Nat} {k : TokenKind}
    (hm : charCodeMap c = some k) : isContentKind k = true := by
  have hm2 : (if c = 9 then some TokenKind.Spacing
      else if c = 32 then some TokenKind.Spacing
      else wordAssignments c) = some k := hm
  split_ifs at hm2 <;>
    first
      | exact wordAssignments_content hm2
      | (injection hm2 with hk; subst hk; rfl)

theorem characterKindOf_none {c : Nat} (h : charCodeMap c = none) :
    characterKindOf c = TokenKind.Other := by
  unfold characterKindOf
  rw [h]

theorem characterKindOf_some {c : Nat} {k : TokenKind}
    (h : charCodeMap c = some k) : characterKindOf c = k := by
  unfold characterKindOf
  rw [h]

/-- Character classification never produces a synthetic token kind. -/
theorem isContentKind_characterKindOf (c : Nat) :
    isContentKind (characterKindOf c) = true := by
  rcases hm : charCodeMap c with _ | k
  · rw [characterKindOf_none hm]
    rfl
  · rw [characterKindOf_some hm]
    exact charCodeMap_content hm

/-! ### Structure of the token list produced by the line scan -/

theorem pendingToken_mem {line : TextRange} {k : Option TokenKind}
    {p i : Nat} {t : Token}
    (hk : ∀ kk, k = some kk → isContentKind kk = true)
    (ht : t ∈ pendingToken line k p i) :
    t.line = line ∧ t.range.buffer = line.buffer ∧
      isContentKind t.kind = true := by
  cases k with
  | none => simp [pendingToken] at ht
  | some kk =>
    simp only [pendingToken, List.mem_singleton] at ht
    subst ht
    exact ⟨rfl, rfl, hk kk rfl⟩

/-- Every token the scan loop emits belongs to the line, covers a range
over the line's buffer, and is either a content token or the line's final
`Newline` token. -/
theorem scanLine_mem (line : TextRange) (fuel : Nat) :
    ∀ {i k p t}, (∀ kk, k = some kk → isContentKind kk = true) →
      t ∈ scanLine line fuel i k p →
      t.line = line ∧ t.range.buffer = line.buffer ∧
        (isContentKind t.kind = true ∨
          t = ⟨TokenKind.Newline, line.getNewRange line.endPos line.endPos,
            line⟩) := by
  induction fuel with
  | zero =>
    intro i k p t hk ht
    rw [scanLine] at ht
    rcases List.mem_append.mp ht with h1 | h2
    · have := pendingToken_mem hk h1
      exact ⟨this.1, this.2.1, Or.inl this.2.2⟩
    · rw [List.mem_singleton] at h2
      subst h2
      exact ⟨rfl, rfl, Or.inr rfl⟩
  | succ fuel ih =>
    intro i k p t hk ht
    rw [scanLine] at ht
    by_cases hg : i < line.endPos
    · rw [if_pos hg] at ht
      by_cases hcond : k ≠ none ∧
          k = some (characterKindOf (charCodeAt line.buffer i)) ∧
          k ≠ some TokenKind.OtherPunctuation
      · rw [if_pos hcond] at ht
        exact ih hk ht
      · rw [if_neg hcond] at ht
        rcases List.mem_append.mp ht with h1 | h2
        · have := pendingToken_mem hk h1
          exact ⟨this.1, this.2.1, Or.inl this.2.2⟩
        · refine ih ?_ h2
          intro kk hkk
          injection hkk with hkk
          subst hkk
          exact isContentKind_characterKindOf _
    · rw [if_neg hg] at ht
      rcases List.mem_append.mp ht with h1 | h2
      · have := pendingToken_mem hk h1
        exact ⟨this.1, this.2.1, Or.inl this.2.2⟩
      · rw [List.mem_singleton] at h2
        subst h2
        exact ⟨rfl, rfl, Or.inr rfl⟩

/-- The scan loop's token list always ends with the line's `Newline`
token. -/
theorem scanLine_getLast (line : TextRange) (fuel : Nat) :
    ∀ i k p, (scanLine line fuel i k p).getLast? =
      some ⟨TokenKind.Newline, line.getNewRange line.endPos line.endPos,
        line⟩ := by
  induction fuel with
  | zero =>
    intro i k p
    rw [scanLine]
    exact List.getLast?_concat _
  | succ fuel ih =>
    intro i k p
    rw [scanLine]
    by_cases hg : i < line.endPos
    · rw [if_pos hg]
      by_cases hcond : k ≠ none ∧
          k = some (characterKindOf (charCodeAt line.buffer i)) ∧
          k ≠ some TokenKind.OtherPunctuation
      · rw [if_pos hcond]
        exact ih _ _ _
      · rw [if_neg hcond, List.getLast?_append, ih]
        rfl
    · rw [if_neg hg]
      exact List.getLast?_concat _

theorem pendingToken_countP {line : TextRange} {k : Option TokenKind}
    {p i : Nat} {pr : Token → Bool}
    (hpr : ∀ t, isContentKind t.kind = true → pr t = false)
    (hk : ∀ kk, k = some kk → isContentKind kk = true) :
    (pendingToken line k p i).countP pr = 0 := by
  cases k with
  | none => rfl
  | some kk =>
    simp only [pendingToken, List.countP_cons, List.countP_nil]
    have : pr ⟨kk, line.getNewRange p i, line⟩ = false := hpr _ (hk kk rfl)
    simp [this]

/-- A predicate that never holds on content tokens counts exactly its
value on the final `Newline` token across the scan loop's output. -/
theorem scanLine_countP (line : TextRange) (fuel : Nat) (pr : Token → Bool)
    (hpr : ∀ t, isContentKind t.kind = true → pr t = false) :
    ∀ i k p, (∀ kk, k = some kk → isContentKind kk = true) →
      (scanLine line fuel i k p).countP pr =
        (if pr ⟨TokenKind.Newline,
            line.getNewRange line.endPos line.endPos, line⟩ then 1 else 0) := by
  induction fuel with
  | zero =>
    intro i k p hk
    rw [scanLine, List.countP_append, pendingToken_countP hpr hk]
    simp [List.countP_cons]
  | succ fuel ih =>
    intro i k p hk
    rw [scanLine]
    by_cases hg : i < line.endPos
    · rw [if_pos hg]
      by_cases hcond : k ≠ none ∧
          k = some (characterKindOf (charCodeAt line.buffer i)) ∧
          k ≠ some TokenKind.OtherPunctuation
      · rw [if_pos hcond]
        exact ih _ _ _ hk
      · rw [if_neg hcond, List.countP_append, pendingToken_countP hpr hk]
        rw [ih]
        · omega
        · intro kk hkk
          injection hkk with hkk
          subst hkk
          exact isContentKind_characterKindOf _
    · rw [if_neg hg, List.countP_append, pendingToken_countP hpr hk]
      simp [List.countP_cons]

theorem tokenBounds_append (a b : List Token) :
    tokenBounds (a ++ b) = tokenBounds a ++ tokenBounds b := by
  unfold tokenBounds
  rw [List.filter_append, List.map_append]

theorem tokenBounds_newline (line : TextRange) :
    tokenBounds [⟨TokenKind.Newline,
      line.getNewRange line.endPos line.endPos, line⟩] = [] :=
  rfl

theorem tokenBounds_pendingToken_none (line : TextRange) (p i : Nat) :
    tokenBounds (pendingToken line none p i) = [] :=
  rfl

theorem tokenBounds_pendingToken_some {kk : TokenKind}
    (line : TextRange) (p i : Nat) (hkk : isContentKind kk = true) :
    tokenBounds (pendingToken line (some kk) p i) = [(p, i)] := by
  have hpend : pendingToken line (some kk) p i =
      [Token.mk kk (line.getNewRange p i) line] := rfl
  unfold tokenBounds
  rw [hpend, List.filter_cons_of_pos (by exact hkk), List.filter_nil]
  rfl

/-- The non-synthetic tokens emitted by the scan loop tile the rest of the
line exactly: starting from the pending token's start (or the current
index when no token is pending) up to the line's end, with no gaps and no
overlaps. -/
theorem scanLine_chain (line : TextRange) (fuel : Nat) :
    ∀ i k p, line.endPos ≤ i + fuel → i ≤ line.endPos →
      (∀ kk, k = some kk → p < i ∧ isContentKind kk = true) →
      (k = none → p = i) →
      chainFrom (match k with | none => i | some _ => p) line.endPos
        (tokenBounds (scanLine line fuel i k p)) := by
  induction fuel with
  | zero =>
    intro i k p hfuel hle hk hnone
    have hie : i = line.endPos := by omega
    rw [scanLine, tokenBounds_append, tokenBounds_newline, List.append_nil]
    cases k with
    | none =>
      rw [tokenBounds_pendingToken_none]
      exact hie ▸ (hnone rfl ▸ rfl)
    | some kk =>
      rw [tokenBounds_pendingToken_some line p i (hk kk rfl).2]
      exact ⟨rfl, (hk kk rfl).1, hie⟩
  | succ fuel ih =>
    intro i k p hfuel hle hk hnone
    rw [scanLine]
    by_cases hg : i < line.endPos
    · rw [if_pos hg]
      by_cases hcond : k ≠ none ∧
          k = some (characterKindOf (charCodeAt line.buffer i)) ∧
          k ≠ some TokenKind.OtherPunctuation
      · rw [if_pos hcond]
        have hksome : ∃ kk, k = some kk := by
          cases k with
          | none => exact absurd rfl hcond.1
          | some kk => exact ⟨kk, rfl⟩
        rcases hksome with ⟨kk, hkk⟩
        subst hkk
        have := ih (i + 1) (some kk) p (by omega) (by omega)
          (fun kk2 h2 => by
            injection h2 with h2
            subst h2
            exact ⟨Nat.lt_succ_of_lt (hk kk rfl).1, (hk kk rfl).2⟩)
          (fun h => Option.noConfusion h)
        exact this
      · rw [if_neg hcond, tokenBounds_append]
        have hrec := ih (i + 1)
          (some (characterKindOf (charCodeAt line.buffer i))) i
          (by omega) (by omega)
          (fun kk2 h2 => by
            injection h2 with h2
            subst h2
            exact ⟨Nat.lt_succ_self i, isContentKind_characterKindOf _⟩)
          (fun h => Option.noConfusion h)
        cases k with
        | none =>
          rw [tokenBounds_pendingToken_none, List.nil_append]
          exact hrec
        | some kk =>
          rw [tokenBounds_pendingToken_some line p i (hk kk rfl).2]
          exact ⟨rfl, (hk kk rfl).1, hrec⟩
    · rw [if_neg hg]
      have hie : i = line.endPos := by omega
      rw [tokenBounds_append, tokenBounds_newline, List.append_nil]
      cases k with
      | none =>
        rw [tokenBounds_pendingToken_none]
        exact hie ▸ (hnone rfl ▸ rfl)
      | some kk =>
        rw [tokenBounds_pendingToken_some line p i (hk kk rfl).2]
        exact ⟨rfl, (hk kk rfl).1, hie⟩

/-- The length of the pending-token flush: one token when a token is in
progress, none otherwise. -/
def pendLen : Option TokenKind → Nat
  | none => 0
  | some _ => 1

theorem pendingToken_length (line : TextRange) (k : Option TokenKind)
    (p i : Nat) : (pendingToken line k p i).length = pendLen k := by
  cases k <;> rfl

/-- The scan loop emits at most one token per character scanned, plus the
pending token and the final `Newline` token. -/
theorem scanLine_length (line : TextRange) (fuel : Nat) :
    ∀ i k p, (scanLine line fuel i k p).length ≤ fuel + pendLen k + 1 := by
  induction fuel with
  | zero =>
    intro i k p
    rw [scanLine, List.length_append, pendingToken_length]
    simp
  | succ fuel ih =>
    intro i k p
    rw [scanLine]
    by_cases hg : i < line.endPos
    · rw [if_pos hg]
      by_cases hcond : k ≠ none ∧
          k = some (characterKindOf (charCodeAt line.buffer i)) ∧
          k ≠ some TokenKind.OtherPunctuation
      · rw [if_pos hcond]
        have h1 := ih (i + 1) k p
        omega
      · rw [if_neg hcond, List.length_append, pendingToken_length]
        have h1 := ih (i + 1)
          (some (characterKindOf (charCodeAt line.buffer i))) i
        have h2 : pendLen (some (characterKindOf (charCodeAt line.buffer i)))
            = 1 := rfl
        omega
    · rw [if_neg hg, List.length_append, pendingToken_length]
      simp

/-! ### From a tiling of the line to exact text reconstruction -/

theorem chainFrom_le {b : Nat} :
    ∀ {l : List (Nat × Nat)} {a : Nat}, chainFrom a b l → a ≤ b := by
  intro l
  induction l with
  | nil => intro a h; exact Nat.le_of_eq h
  | cons q rest ih =>
    intro a h
    exact Nat.le_trans (Nat.le_of_lt h.2.1) (ih h.2.2)

theorem textSlice_append (buf : List Char) {a m b : Nat}
    (h1 : a ≤ m) (h2 : m ≤ b) :
    textSlice buf a m ++ textSlice buf m b = textSlice buf a b := by
  unfold textSlice
  have hba : b - a = (m - a) + (b - m) := by omega
  have hm : a + (m - a) = m := by omega
  rw [hba, List.take_add, List.drop_drop, hm]

/-- Concatenating the slices of a tiling of `[a, b)` yields the slice
`[a, b)`. -/
theorem chainFrom_flatMap_textSlice (buf : List Char) {b : Nat} :
    ∀ {l : List (Nat × Nat)} {a : Nat}, chainFrom a b l →
      l.flatMap (fun q => textSlice buf q.1 q.2) = textSlice buf a b := by
  intro l
  induction l with
  | nil =>
    intro a h
    have hab : a = b := h
    subst hab
    simp [textSlice]
  | cons q rest ih =>
    intro a h
    rcases h with ⟨h1, h2, h3⟩
    rw [List.flatMap_cons, ih h3, h1]
    exact textSlice_append buf (Nat.le_of_lt h2) (chainFrom_le h3)

/-- The source text of the non-synthetic tokens, re-expressed through
their bounds, provided all their ranges alias the given buffer. -/
theorem contentText_eq_bounds_text {buf : List Char} :
    ∀ {ts : List Token}, (∀ t ∈ ts, t.range.buffer = buf) →
      ((ts.filter fun t => isContentKind t.kind).flatMap
        fun t => t.range.text) =
      (tokenBounds ts).flatMap fun q => textSlice buf q.1 q.2 := by
  intro ts hbuf
  unfold tokenBounds
  rw [List.flatMap_def, List.flatMap_def, List.map_map]
  congr 1
  apply List.map_congr_left
  intro t ht
  have hb : t.range.buffer = buf := hbuf t (List.mem_filter.mp ht).1
  show t.range.text = textSlice buf t.range.pos t.range.endPos
  unfold TextRange.text textSlice
  rw [hb]

theorem wordCharCodes_contains_iff (c : Nat) :
    wordCharCodes.contains c = true ↔
      ((48 ≤ c ∧ c ≤ 57) ∨ (65 ≤ c ∧ c ≤ 90) ∨ (97 ≤ c ∧ c ≤ 122)) := by
  constructor
  · intro h
    have hm : c ∈ wordCharCodes := List.elem_iff.mp h
    fin_cases hm <;> omega
  · intro h
    rcases h with ⟨h1, h2⟩ | ⟨h1, h2⟩ | ⟨h1, h2⟩ <;> interval_cases c <;>
      decide

/-! ### The claims -/

/-- Claim C1: for every line (a `TextRange` with `pos ≤ end`), the
non-synthetic tokens the tokenizer emits for it tile the interval
`[pos, end)` with no gaps and no overlaps (`chainFrom`), and concatenating
the source text they cover reconstructs the line's content exactly;
the synthetic `Newline`/`EndOfInput` tokens contribute no characters
(they are excluded by the `isContentKind` filter, and `readTokens` emits
exactly `pushTokensForLine line` for each line plus the final
`EndOfInput`). -/
theorem claim_C1_tokens_reconstruct_line (lines : List TextRange)
    (hlines : ∀ line ∈ lines, line.pos ≤ line.endPos) :
    ∀ line ∈ lines,
      chainFrom line.pos line.endPos
        (tokenBounds (pushTokensForLine line)) ∧
      (((pushTokensForLine line).filter fun t =>
          isContentKind t.kind).flatMap fun t => t.range.text) =
        line.text := by
  intro line hline
  have hpe := hlines line hline
  have hchain : chainFrom line.pos line.endPos
      (tokenBounds (pushTokensForLine line)) :=
    scanLine_chain line (line.endPos - line.pos) line.pos none
      line.pos (by omega) hpe (fun kk h => Option.noConfusion h)
      (fun _ => rfl)
  refine ⟨hchain, ?_⟩
  have hbuf : ∀ t ∈ pushTokensForLine line, t.range.buffer = line.buffer :=
    fun t ht =>
      (scanLine_mem line _ (fun kk h => Option.noConfusion h) ht).2.1
  rw [contentText_eq_bounds_text hbuf,
    chainFrom_flatMap_textSlice line.buffer hchain]
  rfl

/-- Claim C1, witnessed on the line `"a <b"`. -/
theorem claim_C1_witness :
    (∀ line ∈ [mkLine "a <b"], line.pos ≤ line.endPos) ∧
    (((pushTokensForLine (mkLine "a <b")).filter fun t =>
        isContentKind t.kind).flatMap fun t => t.range.text) =
      (mkLine "a <b").text :=
  ⟨by decide,
   (claim_C1_tokens_reconstruct_line [mkLine "a <b"] (by decide)
     (mkLine "a <b") (by simp)).2⟩

/-- Claim C2 (counterexample evaluation): the merge condition at source
line 184 only exempts `OtherPunctuation`, so the line `"<<"` produces a
single `LessThan` token whose range covers both characters (length 2),
even though `isPunctuation` classifies `LessThan` as punctuation and the
`TokenKind.LessThan` documentation promises ranges of length 1. -/
theorem claim_C2_adjacent_less_than_merges :
    pushTokensForLine ⟨['<', '<'], 0, 2⟩ =
      [⟨TokenKind.LessThan, ⟨['<', '<'], 0, 2⟩, ⟨['<', '<'], 0, 2⟩⟩,
       ⟨TokenKind.Newline, ⟨['<', '<'], 2, 2⟩, ⟨['<', '<'], 0, 2⟩⟩] ∧
    isPunctuation TokenKind.LessThan = true := by
  decide

/-- Claim C3: tokenizing the empty line list yields exactly one token, an
`EndOfInput` over the explicit empty range (and `readTokens`, a total
function, is defined on every input). -/
theorem claim_C3_readTokens_empty :
    readTokens [] =
      [⟨TokenKind.EndOfInput, TextRange.empty, TextRange.empty⟩] ∧
    (readTokens []).length = 1 :=
  ⟨rfl, rfl⟩

/-- Claim C4: for a non-empty line list, `readTokens` is the concatenation
of each line's tokens (each ending in that line's zero-length `Newline`
anchored at the line's end) followed by a single zero-length `EndOfInput`
anchored at the end of the last line; every synthetic token carries an
empty range. -/
theorem claim_C4_synthetic_tokens (lines : List TextRange)
    (lastLine : TextRange) (h : lines.getLast? = some lastLine) :
    readTokens lines =
      (lines.map pushTokensForLine).flatten ++
        [⟨TokenKind.EndOfInput,
          lastLine.getNewRange lastLine.endPos lastLine.endPos, lastLine⟩] ∧
    (∀ line ∈ lines, (pushTokensForLine line).getLast? =
      some ⟨TokenKind.Newline, line.getNewRange line.endPos line.endPos,
        line⟩) ∧
    (∀ t ∈ readTokens lines,
      t.kind = TokenKind.Newline ∨ t.kind = TokenKind.EndOfInput →
      t.range.pos = t.range.endPos) := by
  have hr : readTokens lines =
      (lines.map pushTokensForLine).flatten ++
        [⟨TokenKind.EndOfInput,
          lastLine.getNewRange lastLine.endPos lastLine.endPos,
          lastLine⟩] := by
    unfold readTokens
    rw [h]
  refine ⟨hr, ?_, ?_⟩
  · intro line _
    exact scanLine_getLast line _ _ _ _
  · intro t ht hsyn
    rw [hr] at ht
    rcases List.mem_append.mp ht with h1 | h2
    · rcases List.mem_flatten.mp h1 with ⟨l, hl, htl⟩
      rcases List.mem_map.mp hl with ⟨line, _, hline⟩
      subst hline
      rcases (scanLine_mem line _ (fun kk hk => Option.noConfusion hk)
          htl).2.2 with hc | hnl
      · exfalso
        rcases hsyn with hk | hk <;> rw [hk] at hc <;> exact absurd hc
          (by decide)
      · subst hnl
        rfl
    · rw [List.mem_singleton] at h2
      subst h2
      rfl

/-- Claim C4, witnessed on the single line `"hi"`. -/
theorem claim_C4_witness :
    ([mkLine "hi"].getLast? = some (mkLine "hi")) ∧
    readTokens [mkLine "hi"] =
      ([mkLine "hi"].map pushTokensForLine).flatten ++
        [⟨TokenKind.EndOfInput,
          (mkLine "hi").getNewRange (mkLine "hi").endPos (mkLine "hi").endPos,
          mkLine "hi"⟩] :=
  ⟨rfl, (claim_C4_synthetic_tokens [mkLine "hi"] (mkLine "hi") rfl).1⟩

/-- Claim C5: the classification table maps ASCII letters and digits to
`AsciiWord`; space and tab to `Spacing`; the CommonMark punctuation set to
`OtherPunctuation` except the seven distinguished symbols, which override
to their own kinds; and everything else to `Other`. -/
theorem claim_C5_classification_table (c : Nat) :
    (c = 32 ∨ c = 9 → characterKindOf c = TokenKind.Spacing) ∧
    ((48 ≤ c ∧ c ≤ 57) ∨ (65 ≤ c ∧ c ≤ 90) ∨ (97 ≤ c ∧ c ≤ 122) →
      characterKindOf c = TokenKind.AsciiWord) ∧
    (characterKindOf 92 = TokenKind.Backslash ∧
      characterKindOf 60 = TokenKind.LessThan ∧
      characterKindOf 62 = TokenKind.GreaterThan ∧
      characterKindOf 61 = TokenKind.Equals ∧
      characterKindOf 39 = TokenKind.SingleQuote ∧
      characterKindOf 34 = TokenKind.DoubleQuote ∧
      characterKindOf 47 = TokenKind.Slash) ∧
    (commonMarkPunctuationCharCodes.contains c = true →
      c ∉ [92, 60, 62, 61, 39, 34, 47] →
      characterKindOf c = TokenKind.OtherPunctuation) ∧
    (¬((48 ≤ c ∧ c ≤ 57) ∨ (65 ≤ c ∧ c ≤ 90) ∨ (97 ≤ c ∧ c ≤ 122)) →
      c ≠ 32 → c ≠ 9 → commonMarkPunctuationCharCodes.contains c = false →
      characterKindOf c = TokenKind.Other) := by
  refine ⟨?_, ?_, ?_, ?_, ?_⟩
  · rintro (rfl | rfl) <;> decide
  · intro hw
    have hcont : wordCharCodes.contains c = true :=
      (wordCharCodes_contains_iff c).mpr hw
    have h9 : ¬(c = 9) := by rintro rfl; revert hcont; decide
    have h32 : ¬(c = 32) := by rintro rfl; revert hcont; decide
    exact characterKindOf_some
      (by rw [charCodeMap_apply, if_neg h9, if_neg h32, if_pos hcont])
  · exact ⟨by decide, by decide, by decide, by decide, by decide, by decide,
      by decide⟩
  · intro h1 h2
    have hmem : c ∈ commonMarkPunctuationCharCodes := List.elem_iff.mp h1
    fin_cases hmem <;> first | decide | (exact absurd (by decide) h2)
  · intro hnw h32 h9 hp
    have hw : ¬(wordCharCodes.contains c = true) :=
      fun h => hnw ((wordCharCodes_contains_iff c).mp h)
    have h47 : ¬(c = 47) := by rintro rfl; revert hp; decide
    have h34 : ¬(c = 34) := by rintro rfl; revert hp; decide
    have h39 : ¬(c = 39) := by rintro rfl; revert hp; decide
    have h61 : ¬(c = 61) := by rintro rfl; revert hp; decide
    have h62 : ¬(c = 62) := by rintro rfl; revert hp; decide
    have h60 : ¬(c = 60) := by rintro rfl; revert hp; decide
    have h92 : ¬(c = 92) := by rintro rfl; revert hp; decide
    have hpc : ¬(commonMarkPunctuationCharCodes.contains c = true) := by
      rw [hp]; exact Bool.false_ne_true
    exact characterKindOf_none
      (by rw [charCodeMap_apply, if_neg h9, if_neg h32, if_neg hw,
        if_neg h47, if_neg h34, if_neg h39, if_neg h61, if_neg h62,
        if_neg h60, if_neg h92, if_neg hpc])

/-- Claim C5, witnessed at a letter, a dot, and a non-ASCII code point. -/
theorem claim_C5_witness :
    characterKindOf 103 = TokenKind.AsciiWord ∧
    characterKindOf 46 = TokenKind.OtherPunctuation ∧
    characterKindOf 8364 = TokenKind.Other :=
  ⟨(claim_C5_classification_table 103).2.1 (by omega),
   (claim_C5_classification_table 46).2.2.2.1 (by decide) (by decide),
   (claim_C5_classification_table 8364).2.2.2.2 (by omega) (by omega)
     (by omega) (by decide)⟩

/-- Claim C8: tokenization (and the spec-modelled modifier-tag extraction
built on it) is deterministic: equal inputs give structurally equal
outputs.  In this embedding the lazily-built classification table is the
fixed constant `charCodeMap`, so the result depends on nothing but the
input. -/
theorem claim_C8_deterministic (lines1 lines2 : List TextRange)
    (h : lines1 = lines2) :
    readTokens lines1 = readTokens lines2 ∧
    modifierTagSet lines1 = modifierTagSet lines2 := by
  subst h
  exact ⟨rfl, rfl⟩

/-- Claim C8, witnessed on two equal one-line inputs. -/
theorem claim_C8_witness :
    ([mkLine "a"] = [mkLine "a"]) ∧
    readTokens [mkLine "a"] = readTokens [mkLine "a"] :=
  ⟨rfl, (claim_C8_deterministic [mkLine "a"] [mkLine "a"] rfl).1⟩

theorem sum_map_add_one (l : List TextRange) (f : TextRange → Nat) :
    (l.map fun x => f x + 1).sum = (l.map f).sum + l.length := by
  induction l with
  | nil => rfl
  | cons x t ih =>
    simp only [List.map_cons, List.sum_cons, List.length_cons, ih]
    omega

/-- Claim C9: the tokenizer's work is bounded by the input length: the
token list it produces has at most one token per input character, plus one
`Newline` per line and the final `EndOfInput` (and `readTokens`, defined by
structural recursion, terminates on every input). -/
theorem claim_C9_bounded_work (lines : List TextRange)
    (hlines : ∀ line ∈ lines, line.pos ≤ line.endPos) :
    (readTokens lines).length ≤
      (lines.map fun l => l.endPos - l.pos).sum + lines.length + 1 := by
  have h1 : (readTokens lines).length =
      ((lines.map pushTokensForLine).flatten).length + 1 := by
    unfold readTokens
    rw [List.length_append]
    rfl
  rw [h1, List.length_flatten, List.map_map]
  have h2 : ((lines.map (List.length ∘ pushTokensForLine)).sum) ≤
      (lines.map fun l => (l.endPos - l.pos) + 1).sum := by
    apply List.sum_le_sum
    intro line _
    have := scanLine_length line (line.endPos - line.pos) line.pos none
      line.pos
    simpa using this
  rw [sum_map_add_one] at h2
  omega

/-- Claim C9, witnessed on a two-line input. -/
theorem claim_C9_witness :
    (∀ line ∈ [mkLine "ab", mkLine ""], line.pos ≤ line.endPos) ∧
    (readTokens [mkLine "ab", mkLine ""]).length ≤
      ([mkLine "ab", mkLine ""].map fun l => l.endPos - l.pos).sum +
        [mkLine "ab", mkLine ""].length + 1 :=
  ⟨by decide, claim_C9_bounded_work [mkLine "ab", mkLine ""] (by decide)⟩

/-- Claim C10: the token list is never empty, ends in the unique
`EndOfInput` token, contains exactly one `Newline` per input line, and a
line with `pos = end` contributes exactly its `Newline` token. -/
theorem claim_C10_token_list_shape (lines : List TextRange) :
    readTokens lines ≠ [] ∧
    (∃ t, (readTokens lines).getLast? = some t ∧
      t.kind = TokenKind.EndOfInput) ∧
    (readTokens lines).countP (fun t => t.kind == TokenKind.EndOfInput) = 1 ∧
    (readTokens lines).countP (fun t => t.kind == TokenKind.Newline) =
      lines.length ∧
    (∀ line ∈ lines, line.pos = line.endPos →
      pushTokensForLine line =
        [⟨TokenKind.Newline, line.getNewRange line.endPos line.endPos,
          line⟩]) := by
  have hprE : ∀ t : Token, isContentKind t.kind = true →
      (t.kind == TokenKind.EndOfInput) = false := by
    intro t h
    cases hk : t.kind <;> rw [hk] at h <;> revert h <;> decide
  have hprN : ∀ t : Token, isContentKind t.kind = true →
      (t.kind == TokenKind.Newline) = false := by
    intro t h
    cases hk : t.kind <;> rw [hk] at h <;> revert h <;> decide
  have hlineE : ∀ line : TextRange,
      (pushTokensForLine line).countP
        (fun t => t.kind == TokenKind.EndOfInput) = 0 := by
    intro line
    have := scanLine_countP line (line.endPos - line.pos)
      (fun t => t.kind == TokenKind.EndOfInput) hprE line.pos none line.pos
      (fun kk h => Option.noConfusion h)
    simpa using this
  have hlineN : ∀ line : TextRange,
      (pushTokensForLine line).countP
        (fun t => t.kind == TokenKind.Newline) = 1 := by
    intro line
    have := scanLine_countP line (line.endPos - line.pos)
      (fun t => t.kind == TokenKind.Newline) hprN line.pos none line.pos
      (fun kk h => Option.noConfusion h)
    simpa using this
  refine ⟨?_, ?_, ?_, ?_, ?_⟩
  · intro heq
    have h2 := congrArg List.length heq
    unfold readTokens at h2
    rw [List.length_append] at h2
    simp at h2
  · cases hl : lines.getLast? with
    | none =>
      refine ⟨⟨TokenKind.EndOfInput, TextRange.empty, TextRange.empty⟩,
        ?_, rfl⟩
      unfold readTokens
      rw [hl]
      exact List.getLast?_concat _
    | some lastLine =>
      refine ⟨⟨TokenKind.EndOfInput,
        lastLine.getNewRange lastLine.endPos lastLine.endPos, lastLine⟩,
        ?_, rfl⟩
      unfold readTokens
      rw [hl]
      exact List.getLast?_concat _
  · unfold readTokens
    rw [List.countP_append, List.countP_flatten, List.map_map]
    have hz : (lines.map fun l =>
        (List.countP (fun t => t.kind == TokenKind.EndOfInput) ∘
          pushTokensForLine) l) = lines.map fun _ => 0 :=
      List.map_congr_left fun line _ => hlineE line
    rw [hz]
    cases hl : lines.getLast? <;> simp
  · unfold readTokens
    rw [List.countP_append, List.countP_flatten, List.map_map]
    have ho : (lines.map fun l =>
        (List.countP (fun t => t.kind == TokenKind.Newline) ∘
          pushTokensForLine) l) = lines.map fun _ => 1 :=
      List.map_congr_left fun line _ => hlineN line
    rw [ho]
    cases hl : lines.getLast? <;> simp
  · intro line _ hpe
    unfold pushTokensForLine
    have hf : line.endPos - line.pos = 0 := by omega
    rw [hf, scanLine, hpe]
    rfl

/-- Claim C6 (parser modelled from the spec; the parser sources are not
provided): parsing the example comment's stripped body lines with the
default configuration reports beta and internal as present and alpha as
absent in the modifier tag set; the unknown `@unknownTag` and the
duplicated `@internal` do not disturb the result (the model, like the
spec's parser, records them and continues). -/
theorem claim_C6_example_modifier_tags :
    hasTagName exampleCommentLines "@beta" = true ∧
    hasTagName exampleCommentLines "@internal" = true ∧
    hasTagName exampleCommentLines "@alpha" = false := by
  decide

/-- Claim C7 (config-file resolver modelled from the spec; its sources are
not provided): `loadForFolder` on a folder whose `tsdoc.json` is absent
returns — rather than raising — a record with `fileNotFound = true`, an
empty `tsdocSchema`, no tag definitions, and a log holding exactly one
"file not found" message whose text range is the empty range at offset
zero. -/
theorem claim_C7_loadForFolder_missing (fs : String → Option ConfigJson)
    (folderPath : String) (h : fs (folderPath ++ "/tsdoc.json") = none) :
    loadForFolder fs folderPath =
      ConfigFileRecord.mk (folderPath ++ "/tsdoc.json") true "" [] [] []
        [⟨"tsdoc-config-file-not-found", "File not found",
          TextRange.empty⟩] ∧
    (loadForFolder fs folderPath).fileNotFound = true ∧
    (loadForFolder fs folderPath).tsdocSchema = "" ∧
    (loadForFolder fs folderPath).tagDefinitions = [] ∧
    (loadForFolder fs folderPath).log =
      [⟨"tsdoc-config-file-not-found", "File not found", TextRange.empty⟩] ∧
    TextRange.empty.pos = 0 ∧ TextRange.empty.endPos = 0 ∧
    TextRange.empty.buffer = [] := by
  have hrec : loadForFolder fs folderPath =
      ConfigFileRecord.mk (folderPath ++ "/tsdoc.json") true "" [] [] []
        [⟨"tsdoc-config-file-not-found", "File not found",
          TextRange.empty⟩] := by
    unfold loadForFolder
    rw [h]
  rw [hrec]
  exact ⟨rfl, rfl, rfl, rfl, rfl, rfl, rfl, rfl⟩

/-- Claim C7, witnessed on an empty filesystem and the test's `assets/p2`
folder. -/
theorem claim_C7_witness :
    ((fun _ : String => (none : Option ConfigJson))
      ("assets/p2" ++ "/tsdoc.json") = none) ∧
    (loadForFolder (fun _ => none) "assets/p2").fileNotFound = true ∧
    (loadForFolder (fun _ => none) "assets/p2").tsdocSchema = "" ∧
    (loadForFolder (fun _ => none) "assets/p2").tagDefinitions = [] ∧
    (loadForFolder (fun _ => none) "assets/p2").log =
      [⟨"tsdoc-config-file-not-found", "File not found", TextRange.empty⟩] :=
  ⟨rfl,
   (claim_C7_loadForFolder_missing (fun _ => none) "assets/p2" rfl).2.1,
   (claim_C7_loadForFolder_missing (fun _ => none) "assets/p2" rfl).2.2.1,
   (claim_C7_loadForFolder_missing (fun _ => none) "assets/p2" rfl).2.2.2.1,
   (claim_C7_loadForFolder_missing (fun _ => none) "assets/p2"
     rfl).2.2.2.2.1⟩

end TSDoc
